import Mathlib

/-!
# Verification of the radio-scan spectral pipeline

Shallow embedding of the core algorithms of the `radio-scan-demo` repository:
per-segment spectral estimation (`src/src/utils/spectrum_demo.py`,
`src/src/utils/spectrum.py`), cross-segment gain normalisation and stitching,
post-stitch smoothing, the sweep driver, and adaptive peak detection
(`src/tests/scan-freq.py`).  Frequencies and powers are modelled as exact
rationals (or reals where the source computes transcendental values); numpy
arrays become Lean lists.
-/

namespace RadioScan

/-! ## List-level numpy primitives -/

/-- `np.searchsorted(a, v, side='left')` on a sorted array: the first index
whose entry is not below `v`, i.e. the length of the prefix of entries `< v`.
On the sorted frequency arrays used by the stitcher this coincides with
numpy's binary search. -/
def searchsortedLeft {α : Type*} [LinearOrder α] (l : List α) (v : α) : Nat :=
  (l.takeWhile (fun x => decide (x < v))).length

/-- Insert into an ascending-sorted list; building block of the sort used to
model `np.median`. -/
def insertAsc {β : Type*} [LinearOrder β] (x : β) : List β → List β
  | [] => [x]
  | y :: ys => if x ≤ y then x :: y :: ys else y :: insertAsc x ys

/-- Ascending sort (models the sort performed inside `np.median`). -/
def sortAsc {β : Type*} [LinearOrder β] (l : List β) : List β :=
  l.foldr insertAsc []

/-- `np.median`: middle entry of the sorted data for odd length, average of
the two middle entries for even length.  numpy yields NaN on empty input; the
pipeline only takes medians of non-empty PSD rows, so the `getD` defaults are
never reached there. -/
def median {β : Type*} [LinearOrderedField β] (l : List β) : β :=
  let s := sortAsc l
  if l.length % 2 = 1 then s.getD (l.length / 2) 0
  else (s.getD (l.length / 2 - 1) 0 + s.getD (l.length / 2) 0) / 2

/-- `np.convolve(a, v)` (mode `'full'`): entry `j` is `Σ_m a[m] * v[j-m]`,
the sum running over the indices where both factors exist. -/
def npConvolveFull {β : Type*} [LinearOrderedField β] (a v : List β) : List β :=
  (List.range (a.length + v.length - 1)).map fun j =>
    ((List.range a.length).map fun m =>
      if m ≤ j ∧ j - m < v.length then a.getD m 0 * v.getD (j - m) 0 else 0).sum

/-- `np.convolve(a, v, mode='same')`: the centred slice of the full
convolution, of length `max a.length v.length`, starting at index
`(min a.length v.length - 1) / 2` of the full result. -/
def npConvolveSame {β : Type*} [LinearOrderedField β] (a v : List β) : List β :=
  ((npConvolveFull a v).drop ((min a.length v.length - 1) / 2)).take
    (max a.length v.length)

/-! ## Segment stitching (`src/src/utils/spectrum.py`, CPU path)

Frequencies have type `α`, PSD values type `β`; the sweep claims instantiate
`α := ℚ` and `β := ℝ`, the pure stitching claims use `ℚ` for both. -/

variable {α β : Type*}

/-- One iteration of the stitching loop in
`stitch_segments_with_overlap_handling` (lines 215-228): the next segment's
PSD is scaled by its gain correction, then either concatenated wholesale when
`current_freqs[-1] < next_freqs[0]`, or appended from
`np.searchsorted(next_freqs, current_freqs[-1])` on; if that index is past the
end, nothing is appended.  The `getLastD`/`headD` defaults stand for Python's
`current_freqs[-1]` / `next_freqs[0]`, which this code path only evaluates on
non-empty arrays. -/
def stitchStep [LinearOrderedField α] [LinearOrderedField β]
    (cur : List α × List β) (nxt : List α × (List β × β)) : List α × List β :=
  let nextFreqs := nxt.1
  let nextPsd := nxt.2.1.map (fun p => p * nxt.2.2)
  if cur.1.getLastD 0 < nextFreqs.headD 0 then
    (cur.1 ++ nextFreqs, cur.2 ++ nextPsd)
  else
    let overlapStart := searchsortedLeft nextFreqs (cur.1.getLastD 0)
    if overlapStart < nextFreqs.length then
      (cur.1 ++ nextFreqs.drop overlapStart, cur.2 ++ nextPsd.drop overlapStart)
    else
      cur

/-- `stitch_segments_with_overlap_handling` (CPU path, lines 211-230).  The
accumulator starts from segment 0's arrays unmodified and folds `stitchStep`
over segments `1, 2, …`.  Indexing `segments[0]` / `freq_arrays[0]` on an
empty input raises `IndexError` in the source; that error is `none` here.  The
three parallel arrays always have equal length at the call sites; the `zip`
mirrors the index-aligned loop `for i in range(1, len(segments))` under that
assumption. -/
def stitchSegmentsWithOverlapHandling [LinearOrderedField α]
    [LinearOrderedField β] (segments : List (List β))
    (freqArrays : List (List α)) (gainCorrections : List β) :
    Option (List α × List β) :=
  match segments, freqArrays with
  | s0 :: srest, f0 :: frest =>
      some ((frest.zip (srest.zip (gainCorrections.drop 1))).foldl
        stitchStep (f0, s0))
  | _, _ => none

/-- `calculate_gain_corrections` (CPU path, lines 177-185): the `np.ones`
initialisation leaves entry 0 at 1; the loop sets entry `i` (for `i ≥ 1`) to
`median(segments[0]) / median(segments[i])`.  `np.median(segments[0])` on an
empty segment list raises `IndexError`: that error is `none` here. -/
def calculateGainCorrections [LinearOrderedField β]
    (segments : List (List β)) : Option (List β) :=
  match segments with
  | [] => none
  | s0 :: rest => some (1 :: rest.map (fun s => median s0 / median s))

/-- `apply_final_smoothing` (CPU path, lines 233-242): a box kernel of
`kernel_size` entries `1 / kernel_size`, applied with
`np.convolve(psd, kernel, mode='same')`, but only when
`len(psd) > kernel_size * 2`; otherwise the input is returned unchanged. -/
def applyFinalSmoothing [LinearOrderedField β] (psd : List β)
    (kernelSize : Nat) : List β :=
  if psd.length > kernelSize * 2 then
    npConvolveSame psd (List.replicate kernelSize (1 / (kernelSize : β)))
  else psd

/-! ## Spectral estimation (`src/src/utils/spectrum_demo.py`,
`src/src/utils/spectrum.py`)

The transcendental parts (Hann window, DFT, `log10`) are modelled exactly
over `ℝ`/`ℂ`; frequency axes are exact rationals. -/

/-- `np.log10`. -/
noncomputable def log10 (x : ℝ) : ℝ := Real.log x / Real.log 10

/-- `scipy.signal.windows.hann(M)` (symmetric):
`w[k] = 0.5 - 0.5*cos(2πk/(M-1))`.  (scipy special-cases `M = 1` to `[1.0]`;
the pipeline always uses `M ≥ 2`, where this formula is exact.) -/
noncomputable def hannWindow (m : ℕ) : List ℝ :=
  (List.range m).map fun k : ℕ =>
    1 / 2 - 1 / 2 * Real.cos (2 * Real.pi * (k : ℝ) / ((m : ℝ) - 1))

/-- `np.fft.fft`: `X[k] = Σ_m x[m]·exp(-2πi·k·m/n)`. -/
noncomputable def dft (x : List ℂ) : List ℂ :=
  (List.range x.length).map fun k : ℕ =>
    ∑ m ∈ Finset.range x.length,
      x.getD m 0 * Complex.exp (-2 * Real.pi * Complex.I * (k : ℂ) * (m : ℂ) /
        (x.length : ℂ))

/-- `np.fft.fftshift`: cyclic roll moving the zero-frequency bin to the
centre; equals `x[⌈n/2⌉:] ++ x[:⌈n/2⌉]`. -/
def fftshift {γ : Type*} (x : List γ) : List γ :=
  x.drop ((x.length + 1) / 2) ++ x.take ((x.length + 1) / 2)

/-- The frequency axis used by both `SpectrumProcessor` (spectrum_demo.py
lines 47-50) and `capture_and_process_segment` (spectrum.py lines 124-126):
`np.arange(fft_size) * freq_step + freq_start` with
`freq_start = center_frequency - sample_rate // 2` (Python floor division on
ints) and `freq_step = sample_rate / fft_size` (true division). -/
def processedFrequencies (centerFrequency sampleRate : ℤ) (fftSize : ℕ) :
    List ℚ :=
  (List.range fftSize).map fun i : ℕ =>
    (i : ℚ) * ((sampleRate : ℚ) / (fftSize : ℚ)) +
      ((centerFrequency - sampleRate / 2 : ℤ) : ℚ)

/-- `SpectrumProcessor.process_fft` input conditioning (spectrum_demo.py
lines 88-95): truncate when longer than `fft_size`, zero-pad at the tail when
shorter. -/
def padToFftSize (iqSamples : List ℂ) (fftSize : ℕ) : List ℂ :=
  if iqSamples.length > fftSize then iqSamples.take fftSize
  else iqSamples ++ List.replicate (fftSize - iqSamples.length) 0

/-- `SpectrumProcessor.process_fft` (CPU path, spectrum_demo.py lines 78-166):
truncate/zero-pad to `fft_size`, Hann window, FFT, `fftshift`, magnitude
squared, normalise by `sample_rate * sum(window)`, floor at `1e-12`, convert
to dBm with `10*log10(psd) + 30 - 10*log10(50)`.  Returns
`(frequencies, fft_magnitude_db, peak_rssi)`; the peak is `np.argmax`'s value,
i.e. the maximum of the PSD list (the `headD` seed only matters for
`fft_size = 0`, where numpy's `argmax` would fail). -/
noncomputable def processFft (fftSize : ℕ) (sampleRate centerFrequency : ℤ)
    (iqSamples : List ℂ) : List ℚ × List ℝ × ℝ :=
  let buffer := padToFftSize iqSamples fftSize
  let window := hannWindow fftSize
  let windowed := List.zipWith (fun (s : ℂ) (w : ℝ) => s * (w : ℂ)) buffer window
  let shifted := fftshift (dft windowed)
  let psd := shifted.map fun z =>
    max (Complex.abs z ^ 2 / ((sampleRate : ℝ) * window.sum)) (1 / 10 ^ 12)
  let psdDb := psd.map fun p => 10 * log10 p + 30 - 10 * log10 50
  (processedFrequencies centerFrequency sampleRate fftSize, psdDb,
    psdDb.foldr max (psdDb.headD 0))

/-! ## Peak detection (`src/tests/scan-freq.py`) -/

/-- The peak-detection knobs of `FFT_CONFIG` (scan-freq.py lines 43-50).
Powers have type `β` (`ℚ` for the decidable claims, `ℝ` along the full
pipeline). -/
structure FftConfig (β : Type*) where
  fftSize : ℕ
  minPeakHeight : β
  peakThresholdDb : β
  windowSizeDivisor : ℕ
  minWindowSize : ℕ
  maxPeaksPerBand : ℕ

/-- Python `int()` on a rational: truncation toward zero. -/
def pyInt (q : ℚ) : ℤ := Int.tdiv q.num (q.den : ℤ)

/-- The candidate-collection loop of `detect_peaks_in_spectrum`
(scan-freq.py lines 144-171): for each interior index
`i ∈ [w, len - w)` with `w = max(min_window_size, len // window_size_divisor)`
keep `(int(freqs[i]), power[i])` iff `power[i]` is not below
`min_peak_height`, equals `np.max` of the closed window `[i-w, i+w]`, exceeds
the mean of the two flanking bands (clipped to the array) by at least
`peak_threshold_db`, and `abs(int(freqs[i]) - center_freq) <= bandwidth // 2`.
The mean's divisor is never zero in the loop: the right band always contains
index `i + w < len`. -/
def peakCandidateAt [LinearOrderedField β] (cfg : FftConfig β)
    (powerSpectrum : List β) (freqs : List ℚ) (centerFreq bandwidth : ℤ)
    (w i : ℕ) : Option (ℤ × β) :=
  let currentPower := powerSpectrum.getD i 0
  if currentPower < cfg.minPeakHeight then none
  else
    let localWindow := (powerSpectrum.drop (i - w)).take (2 * w + 1)
    if localWindow.max? = some currentPower then
      let surrounding :=
        (powerSpectrum.drop (i - 2 * w)).take ((i - w) - (i - 2 * w)) ++
          (powerSpectrum.drop (i + w)).take
            (min powerSpectrum.length (i + 2 * w) - (i + w))
      let surroundingAvg := surrounding.sum / (surrounding.length : β)
      if cfg.peakThresholdDb ≤ currentPower - surroundingAvg then
        let freqHz := pyInt (freqs.getD i 0)
        if |freqHz - centerFreq| ≤ bandwidth / 2 then
          some (freqHz, currentPower)
        else none
      else none
    else none

def detectCandidates [LinearOrderedField β] (cfg : FftConfig β)
    (powerSpectrum : List β) (freqs : List ℚ) (centerFreq bandwidth : ℤ) :
    List (ℤ × β) :=
  let w := max cfg.minWindowSize (powerSpectrum.length / cfg.windowSizeDivisor)
  (List.range' w (powerSpectrum.length - 2 * w)).filterMap
    (peakCandidateAt cfg powerSpectrum freqs centerFreq bandwidth w)

/-- The acceptance predicate of claim C8 in the specification's formulation
rather than the loop's: interior window bounds, absolute floor, closed-window
maximum (any index attaining the maximum — the amended tie rule), prominence
of at least `peak_threshold_db` over the mean of the two flanking index
bands, and the reported integer frequency within `bandwidth/2` (as an exact
rational) of the centre frequency. -/
def claimPeakAccept [LinearOrderedField β] (cfg : FftConfig β)
    (powerSpectrum : List β) (freqs : List ℚ) (centerFreq bandwidth : ℤ)
    (i : ℕ) : Prop :=
  let w := max cfg.minWindowSize (powerSpectrum.length / cfg.windowSizeDivisor)
  w ≤ i ∧ i < powerSpectrum.length - w ∧
  cfg.minPeakHeight ≤ powerSpectrum.getD i 0 ∧
  (∀ j < powerSpectrum.length, i - w ≤ j → j ≤ i + w →
    powerSpectrum.getD j 0 ≤ powerSpectrum.getD i 0) ∧
  cfg.peakThresholdDb ≤ powerSpectrum.getD i 0 -
    ((∑ j ∈ Finset.Ico (i - 2 * w) (i - w), powerSpectrum.getD j 0) +
      ∑ j ∈ Finset.Ico (i + w) (min powerSpectrum.length (i + 2 * w)),
        powerSpectrum.getD j 0) /
    ((((Finset.Ico (i - 2 * w) (i - w)).card +
      (Finset.Ico (i + w) (min powerSpectrum.length (i + 2 * w))).card : ℕ)) : β) ∧
  (centerFreq : ℚ) - (bandwidth : ℚ) / 2 ≤ (pyInt (freqs.getD i 0) : ℚ) ∧
  (pyInt (freqs.getD i 0) : ℚ) ≤ (centerFreq : ℚ) + (bandwidth : ℚ) / 2

instance claimPeakAccept.instDecidable [LinearOrderedField β]
    (cfg : FftConfig β) (powerSpectrum : List β) (freqs : List ℚ)
    (centerFreq bandwidth : ℤ) (i : ℕ) :
    Decidable (claimPeakAccept cfg powerSpectrum freqs centerFreq bandwidth i) := by
  unfold claimPeakAccept
  infer_instance

/-- Stable insertion into a list sorted by descending power; equal powers keep
their original order, as with Python's stable `sort`. -/
def insertByPowerDesc {β : Type*} [LinearOrderedField β] (x : ℤ × β) :
    List (ℤ × β) → List (ℤ × β)
  | [] => [x]
  | y :: ys => if y.2 ≤ x.2 then x :: y :: ys else y :: insertByPowerDesc x ys

/-- `peaks.sort(key=lambda x: x[1], reverse=True)`: stable descending sort by
power. -/
def sortByPowerDesc {β : Type*} [LinearOrderedField β] (l : List (ℤ × β)) :
    List (ℤ × β) :=
  l.foldr insertByPowerDesc []

/-- `detect_peaks_in_spectrum` tail (scan-freq.py lines 172-174): sort the
accepted candidates by power descending and truncate to
`max_peaks_per_band`. -/
def detectPeaks [LinearOrderedField β] (cfg : FftConfig β)
    (powerSpectrum : List β) (freqs : List ℚ) (centerFreq bandwidth : ℤ) :
    List (ℤ × β) :=
  (sortByPowerDesc (detectCandidates cfg powerSpectrum freqs centerFreq
    bandwidth)).take cfg.maxPeaksPerBand

/-- `np.fft.fftfreq(n, 1/sample_rate)`: `[0, 1, …, ⌈n/2⌉-1, -(n⌊/2⌋), …, -1]
· sample_rate / n`. -/
def fftfreq (n : ℕ) (sampleRate : ℤ) : List ℚ :=
  (List.range n).map fun i : ℕ =>
    (if i < (n + 1) / 2 then (i : ℚ) else (i : ℚ) - (n : ℚ)) *
      (sampleRate : ℚ) / (n : ℚ)

/-- `detect_peaks_in_spectrum` (scan-freq.py lines 81-174), full path: empty
input returns `[]` immediately; otherwise the FFT size is
`min(FFT_CONFIG['fft_size'], len(samples))`, samples are truncated (the
zero-pad branch is unreachable since the size never exceeds the input
length), the spectrum is `20*log10(|FFT|/fft_size + 1e-12)` and both spectrum
and `fftfreq` axis are `fftshift`ed, the axis recentred on `center_freq`. -/
noncomputable def detectPeaksInSpectrum (cfg : FftConfig ℝ) (samples : List ℂ)
    (centerFreq sampleRate bandwidth : ℤ) : List (ℤ × ℝ) :=
  if samples = [] then []
  else
    let fftSize := min cfg.fftSize samples.length
    let truncated :=
      if samples.length < fftSize then
        samples ++ List.replicate (fftSize - samples.length) 0
      else if samples.length > fftSize then samples.take fftSize
      else samples
    let fftResult := dft truncated
    let powerSpectrum := fftResult.map fun z =>
      20 * log10 (Complex.abs z / (fftSize : ℝ) + 1 / 10 ^ 12)
    let freqs := (fftshift (fftfreq truncated.length sampleRate)).map
      (fun f => f + (centerFreq : ℚ))
    detectPeaks cfg (fftshift powerSpectrum) freqs centerFreq bandwidth

/-! ## The sweep driver (`src/src/utils/spectrum.py` lines 335-402) -/

/-- `capture_and_process_segment` (spectrum.py lines 69-128, CPU path),
with the hardware capture's result passed in.  `pluto.capture_samples` may
return `None` (slicing it then raises `TypeError`), and the assignment
`arrays['iq_buffer'][:] = iq_samples` raises `ValueError` whenever the
truncated capture is shorter than `fft_size`; both exceptions are `none`
here.  Otherwise: Hann window, FFT (no `fftshift` in sweep mode), magnitude
squared, normalise by `sample_rate * sum(window)`, floor at `1e-12`,
`10*log10`, and the `arange`-based frequency axis. -/
noncomputable def captureAndProcessSegment (captured : Option (List ℂ))
    (centerFreq sampleRate : ℤ) (fftSize : ℕ) : Option (List ℚ × List ℝ) :=
  match captured with
  | none => none
  | some s =>
      let iq := s.take fftSize
      if iq.length < fftSize then none
      else
        let window := hannWindow fftSize
        let windowed := List.zipWith (fun (x : ℂ) (w : ℝ) => x * (w : ℂ)) iq window
        let psd := (dft windowed).map fun z =>
          10 * log10 (max (Complex.abs z ^ 2 / ((sampleRate : ℝ) * window.sum))
            (1 / 10 ^ 12))
        some (processedFrequencies centerFreq sampleRate fftSize, psd)

/-- Python `range(start, stop, step)` for positive step. -/
def pythonRange (start stop step : ℤ) : List ℤ :=
  if 0 < step then
    (List.range ((stop - start + step - 1) / step).toNat).map
      fun i => start + i * step
  else []

/-- The sweep loop's exception behaviour: steps are processed in order and
the first failing step aborts the whole computation (the exception propagates
to the surrounding `try`). -/
def collectSteps {γ δ : Type*} (f : γ → Option δ) : List γ → Option (List δ)
  | [] => some []
  | c :: rest =>
      match f c with
      | none => none
      | some x =>
          match collectSteps f rest with
          | none => none
          | some xs => some (x :: xs)

/-- `scan_and_stitch_spectrum_with_connection` (spectrum.py lines 335-402):
centre frequencies are `range(start, end+1, step)` (whose length equals the
pre-allocated `num_steps = int((end-start)/step) + 1` whenever
`start ≤ end` and `step > 0`, so every pre-allocated row is overwritten);
each step captures and processes one segment, then gain corrections, overlap
stitching and final smoothing are applied.  Any exception — a failed or short
capture, or the empty-input `IndexError` in stitching — is caught by the
surrounding `except`, which returns two empty arrays. -/
noncomputable def scanAndStitchSpectrumWithConnection
    (capture : ℤ → Option (List ℂ)) (startFreq endFreq stepFreq : ℤ)
    (fftSize : ℕ) (sampleRate : ℤ) : List ℚ × List ℝ :=
  let centers := pythonRange startFreq (endFreq + 1) stepFreq
  match collectSteps
      (fun c => captureAndProcessSegment (capture c) c sampleRate fftSize)
      centers with
  | none => ([], [])
  | some segs =>
      match calculateGainCorrections (segs.map Prod.snd) with
      | none => ([], [])
      | some gc =>
          match stitchSegmentsWithOverlapHandling (segs.map Prod.snd)
              (segs.map Prod.fst) gc with
          | none => ([], [])
          | some (freqs, psd) => (freqs, applyFinalSmoothing psd 5)

/-! ## Helper lemmas on lists -/

theorem getLast?_eq_some_getLastD {γ : Type*} {l : List γ} (h : l ≠ []) (d : γ) :
    l.getLast? = some (l.getLastD d) := by
  cases l with
  | nil => exact absurd rfl h
  | cons a t =>
      rw [List.getLastD_eq_getLast?, List.getLast?_eq_getLast (a :: t) (List.cons_ne_nil a t)]
      rfl

theorem head?_eq_some_headD {γ : Type*} {l : List γ} (h : l ≠ []) (d : γ) :
    l.head? = some (l.headD d) := by
  cases l with
  | nil => exact absurd rfl h
  | cons a t => rfl

theorem getLastD_append_of_ne_nil {γ : Type*} {l₂ : List γ} (h : l₂ ≠ [])
    (l₁ : List γ) (d : γ) : (l₁ ++ l₂).getLastD d = l₂.getLastD d := by
  rw [List.getLastD_eq_getLast?, List.getLastD_eq_getLast?,
    List.getLast?_append_of_ne_nil _ h]

theorem chain'_drop {γ : Type*} {R : γ → γ → Prop} {l : List γ}
    (h : List.Chain' R l) (k : Nat) : List.Chain' R (l.drop k) := by
  nth_rewrite 1 [show l = l.take k ++ l.drop k from (List.take_append_drop k l).symm] at h
  exact h.right_of_append

theorem getLastD_drop {γ : Type*} {l : List γ} {k : Nat} (h : l.drop k ≠ [])
    (d : γ) : (l.drop k).getLastD d = l.getLastD d := by
  nth_rewrite 2 [show l = l.take k ++ l.drop k from (List.take_append_drop k l).symm]
  exact (getLastD_append_of_ne_nil h _ d).symm

/-- The suffix kept from `np.searchsorted(l, v, 'left')` on is exactly the
suffix that drops the leading entries `< v`. -/
theorem drop_searchsortedLeft {γ : Type*} [LinearOrder γ] (l : List γ) (v : γ) :
    l.drop (searchsortedLeft l v) = l.dropWhile (fun x => decide (x < v)) := by
  unfold searchsortedLeft
  nth_rewrite 2 [show l = l.takeWhile (fun x => decide (x < v)) ++
    l.dropWhile (fun x => decide (x < v)) from
    (List.takeWhile_append_dropWhile _ l).symm]
  exact List.drop_left _ _

/-- When `np.searchsorted(l, v, 'left')` lands inside the array, the entry
there is not below `v`. -/
theorem le_headD_drop_searchsortedLeft {γ : Type*} [LinearOrder γ]
    {l : List γ} {v : γ} (h : searchsortedLeft l v < l.length) (d : γ) :
    v ≤ (l.drop (searchsortedLeft l v)).headD d := by
  have hne : l.drop (searchsortedLeft l v) ≠ [] := by
    intro hnil
    have := List.drop_eq_nil_iff.mp hnil
    omega
  rw [drop_searchsortedLeft] at hne ⊢
  have h0 : 0 < (l.dropWhile (fun x => decide (x < v))).length :=
    List.length_pos.mpr hne
  have := List.dropWhile_get_zero_not (fun x => decide (x < v)) l h0
  simp only [List.get_eq_getElem] at this
  simp only [List.headD_eq_head?, List.head?_eq_getElem?,
    List.getElem?_eq_getElem h0, Option.getD_some]
  simpa using this

/-! ## Claim C3: stitching on the empty segment list -/

/-- C3 (counterexample): stitching the empty segment list is Python's
`IndexError` at `freq_arrays[0]` — modelled as `none` — not an empty
`StitchedSpectrum`; likewise `calculate_gain_corrections` fails on the empty
list instead of returning an empty array. -/
theorem stitch_empty_counterexample :
    stitchSegmentsWithOverlapHandling ([] : List (List ℚ))
        ([] : List (List ℚ)) [] = none ∧
    calculateGainCorrections ([] : List (List ℚ)) = none ∧
    stitchSegmentsWithOverlapHandling ([] : List (List ℚ))
        ([] : List (List ℚ)) [] ≠ some ([], []) := by
  refine ⟨rfl, rfl, ?_⟩
  intro h
  simp [stitchSegmentsWithOverlapHandling] at h

/-- C3 (amended): stitching called with an empty segment list fails with an
index error (modelled as `none`) for every accompanying frequency-array and
gain input, rather than returning a zero-length spectrum, and the
gain-correction computation likewise fails on an empty segment list. -/
theorem stitch_empty_segments_fails (freqArrays : List (List ℚ))
    (gains : List ℚ) :
    stitchSegmentsWithOverlapHandling [] freqArrays gains = none ∧
    calculateGainCorrections ([] : List (List ℚ)) = none := by
  refine ⟨?_, rfl⟩
  cases freqArrays <;> rfl

/-! ## Claim C1: monotonicity of the stitched frequency axis -/

/-- One stitching step keeps the frequency axis strictly increasing and
non-empty, provided the accumulated last frequency does not occur in the next
segment; the new last frequency is the old one or the next segment's last. -/
theorem stitchStep_strictChain [LinearOrderedField α] [LinearOrderedField β]
    (cur : List α × List β) (nxt : List α × (List β × β))
    (hc : List.Chain' (· < ·) cur.1) (hcne : cur.1 ≠ [])
    (hn : List.Chain' (· < ·) nxt.1) (hnne : nxt.1 ≠ [])
    (hnotin : cur.1.getLastD 0 ∉ nxt.1) :
    List.Chain' (· < ·) (stitchStep cur nxt).1 ∧ (stitchStep cur nxt).1 ≠ [] ∧
      ((stitchStep cur nxt).1.getLastD 0 = cur.1.getLastD 0 ∨
        (stitchStep cur nxt).1.getLastD 0 = nxt.1.getLastD 0) := by
  unfold stitchStep
  by_cases hlt : cur.1.getLastD 0 < nxt.1.headD 0
  · simp only [if_pos hlt]
    refine ⟨List.chain'_append.mpr ⟨hc, hn, ?_⟩, by simp [hcne], Or.inr ?_⟩
    · intro x hx y hy
      rw [getLast?_eq_some_getLastD hcne 0] at hx
      rw [head?_eq_some_headD hnne 0] at hy
      simp only [Option.mem_def, Option.some.injEq] at hx hy
      rw [hx, hy] at hlt
      exact hlt
    · exact getLastD_append_of_ne_nil hnne _ 0
  · simp only [if_neg hlt]
    by_cases hk : searchsortedLeft nxt.1 (cur.1.getLastD 0) < nxt.1.length
    · simp only [if_pos hk]
      have hdropne : nxt.1.drop (searchsortedLeft nxt.1 (cur.1.getLastD 0)) ≠ [] := by
        intro hnil
        have := List.drop_eq_nil_iff.mp hnil
        omega
      have hle : cur.1.getLastD 0 ≤
          (nxt.1.drop (searchsortedLeft nxt.1 (cur.1.getLastD 0))).headD 0 :=
        le_headD_drop_searchsortedLeft hk 0
      have hmem : (nxt.1.drop (searchsortedLeft nxt.1 (cur.1.getLastD 0))).headD 0 ∈ nxt.1 := by
        apply List.drop_subset (searchsortedLeft nxt.1 (cur.1.getLastD 0))
        cases hd : nxt.1.drop (searchsortedLeft nxt.1 (cur.1.getLastD 0)) with
        | nil => exact absurd hd hdropne
        | cons a t => simp [hd]
      have hltstrict : cur.1.getLastD 0 <
          (nxt.1.drop (searchsortedLeft nxt.1 (cur.1.getLastD 0))).headD 0 := by
        rcases lt_or_eq_of_le hle with h | h
        · exact h
        · exact absurd (h ▸ hmem) hnotin
      refine ⟨List.chain'_append.mpr ⟨hc, chain'_drop hn _, ?_⟩, by simp [hcne], Or.inr ?_⟩
      · intro x hx y hy
        rw [getLast?_eq_some_getLastD hcne 0] at hx
        rw [head?_eq_some_headD hdropne 0] at hy
        simp only [Option.mem_def, Option.some.injEq] at hx hy
        rw [hy, hx] at hltstrict
        exact hltstrict
      · rw [getLastD_append_of_ne_nil hdropne _ 0]
        exact getLastD_drop hdropne 0
    · rw [if_neg hk]
      exact ⟨hc, hcne, Or.inl rfl⟩

/-- Folding the stitching loop over later segments preserves strict
monotonicity of the accumulated frequency axis, given that every segment is
strictly increasing, non-empty, and that no segment contains the last
frequency of an earlier segment (or of the accumulator). -/
theorem stitchLoop_strictChain [LinearOrderedField α] [LinearOrderedField β] :
    ∀ (rest : List (List α × (List β × β))) (cur : List α × List β),
      List.Chain' (· < ·) cur.1 → cur.1 ≠ [] →
      (∀ p ∈ rest, List.Chain' (· < ·) p.1 ∧ p.1 ≠ []) →
      (∀ p ∈ rest, cur.1.getLastD 0 ∉ p.1) →
      List.Pairwise (fun p q => p.1.getLastD 0 ∉ q.1) rest →
      List.Chain' (· < ·) ((rest.foldl stitchStep cur).1) ∧
        (rest.foldl stitchStep cur).1 ≠ [] := by
  intro rest
  induction rest with
  | nil => intro cur hc hcne _ _ _; exact ⟨hc, hcne⟩
  | cons a rest ih =>
      intro cur hc hcne hall hlast hpw
      obtain ⟨ha, hane⟩ := hall a (List.mem_cons_self a rest)
      obtain ⟨hc', hcne', hlast'⟩ :=
        stitchStep_strictChain cur a hc hcne ha hane (hlast a (List.mem_cons_self a rest))
      rw [List.foldl_cons]
      refine ih (stitchStep cur a) hc' hcne' (fun p hp => hall p (List.mem_cons_of_mem a hp)) ?_
        (List.Pairwise.of_cons hpw)
      intro p hp
      rcases hlast' with h | h
      · rw [h]; exact hlast p (List.mem_cons_of_mem a hp)
      · rw [h]
        exact (List.pairwise_cons.mp hpw).1 p hp

/-- C1 (amended): for a list of two or more segments, each with a strictly
increasing non-empty frequency axis, and such that no segment contains a
frequency equal to an earlier segment's last frequency, the stitched frequency
axis is strictly increasing (hence duplicate-free).  When a frequency of the
next segment is exactly equal to the accumulated last frequency,
`np.searchsorted(..., side='left')` re-appends that frequency and the output
contains a duplicate instead. -/
theorem stitch_output_strictMono (segments : List (List ℚ))
    (freqArrays : List (List ℚ)) (gains : List ℚ)
    (hlen2 : 2 ≤ segments.length)
    (hlenf : freqArrays.length = segments.length)
    (hleng : gains.length = segments.length)
    (hchain : ∀ f ∈ freqArrays, List.Chain' (· < ·) f)
    (hne : ∀ f ∈ freqArrays, f ≠ [])
    (hsep : List.Pairwise (fun a b => a.getLastD 0 ∉ b) freqArrays) :
    ∃ F P, stitchSegmentsWithOverlapHandling segments freqArrays gains =
        some (F, P) ∧ List.Chain' (· < ·) F ∧ F.Nodup := by
  match segments, freqArrays with
  | s0 :: srest, f0 :: frest =>
    simp only [stitchSegmentsWithOverlapHandling]
    set rest := frest.zip (srest.zip (gains.drop 1)) with hrest
    have hfst : ∀ p ∈ rest, p.1 ∈ frest := fun p hp => (List.of_mem_zip hp).1
    have hres := stitchLoop_strictChain rest (f0, s0)
      (hchain f0 (List.mem_cons_self f0 frest)) (hne f0 (List.mem_cons_self f0 frest))
      (fun p hp => ⟨hchain p.1 (List.mem_cons_of_mem f0 (hfst p hp)),
        hne p.1 (List.mem_cons_of_mem f0 (hfst p hp))⟩)
      (fun p hp => (List.pairwise_cons.mp hsep).1 p.1 (hfst p hp))
      ?_
    · refine ⟨(rest.foldl stitchStep (f0, s0)).1, (rest.foldl stitchStep (f0, s0)).2,
        rfl, hres.1, ?_⟩
      exact (List.chain'_iff_pairwise.mp hres.1).imp ne_of_lt
    · have hmap : rest.map Prod.fst = frest := by
        apply List.map_fst_zip
        rw [List.length_zip]
        simp only [List.length_cons] at hlenf hleng
        rw [List.length_drop]
        omega
      have := (List.pairwise_cons.mp hsep).2
      rw [← hmap] at this
      exact (List.pairwise_map.mp this).imp fun h => h

/-- C1 (witness): a concrete two-segment stitch satisfying all hypotheses of
`stitch_output_strictMono`. -/
theorem stitch_output_strictMono_witness :
    ∃ F P, stitchSegmentsWithOverlapHandling [[(5 : ℚ), 6], [7, 8]]
        [[(0 : ℚ), 1], [2, 3]] [1, 1] = some (F, P) ∧
      List.Chain' (· < ·) F ∧ F.Nodup :=
  stitch_output_strictMono [[5, 6], [7, 8]] [[0, 1], [2, 3]] [1, 1]
    (by norm_num) (by norm_num) (by norm_num)
    (by norm_num [List.chain'_cons])
    (by simp)
    (by norm_num [List.pairwise_cons])

/-- C1 (counterexample): two segments with strictly increasing frequency axes
where the second segment's first frequency equals the first segment's last
frequency.  The claim asserts the stitched axis is strictly increasing even in
this exact-equality case, but `np.searchsorted(..., side='left')` keeps the
equal bin and the stitched axis `[0, 1, 1, 2]` is not strictly increasing. -/
theorem stitch_output_strictMono_counterexample :
    List.Chain' (· < ·) [(0 : ℚ), 1] ∧ List.Chain' (· < ·) [(1 : ℚ), 2] ∧
    stitchSegmentsWithOverlapHandling [[(10 : ℚ), 20], [30, 40]]
        [[(0 : ℚ), 1], [1, 2]] [1, 1] =
      some ([0, 1, 1, 2], [10, 20, 30, 40]) ∧
    ¬ List.Chain' (· < ·) [(0 : ℚ), 1, 1, 2] := by
  refine ⟨by norm_num [List.chain'_cons], by norm_num [List.chain'_cons], ?_,
    by norm_num [List.chain'_cons]⟩
  simp [stitchSegmentsWithOverlapHandling, stitchStep, searchsortedLeft]

/-! ## Claim C10: segment 0 survives verbatim as a prefix -/

/-- A stitching step only ever appends to both accumulated arrays. -/
theorem stitchStep_append [LinearOrderedField α] [LinearOrderedField β]
    (cur : List α × List β) (nxt : List α × (List β × β)) :
    ∃ a b, stitchStep cur nxt = (cur.1 ++ a, cur.2 ++ b) := by
  unfold stitchStep
  by_cases h1 : cur.1.getLastD 0 < nxt.1.headD 0
  · exact ⟨_, _, by rw [if_pos h1]⟩
  · by_cases h2 : searchsortedLeft nxt.1 (cur.1.getLastD 0) < nxt.1.length
    · exact ⟨_, _, by rw [if_neg h1, if_pos h2]⟩
    · exact ⟨[], [], by rw [if_neg h1, if_neg h2]; simp⟩

/-- The whole stitching loop only ever appends to the accumulator. -/
theorem stitchLoop_append [LinearOrderedField α] [LinearOrderedField β] :
    ∀ (rest : List (List α × (List β × β))) (cur : List α × List β),
      ∃ a b, rest.foldl stitchStep cur = (cur.1 ++ a, cur.2 ++ b) := by
  intro rest
  induction rest with
  | nil => exact fun cur => ⟨[], [], by simp⟩
  | cons x rest ih =>
      intro cur
      obtain ⟨a₁, b₁, h₁⟩ := stitchStep_append cur x
      obtain ⟨a₂, b₂, h₂⟩ := ih (stitchStep cur x)
      exact ⟨a₁ ++ a₂, b₁ ++ b₂, by
        rw [List.foldl_cons, h₂, h₁]
        simp [List.append_assoc]⟩

/-- C10: for every non-empty segment list, the stitched (pre-smoothing)
output keeps segment 0's frequency axis and its uncorrected PSD verbatim as
its prefix — the first `K` output entries are exactly segment 0's `K` entries
— and later segments only append after this prefix. -/
theorem stitch_preserves_segment0 (s0 : List ℚ) (srest : List (List ℚ))
    (f0 : List ℚ) (frest : List (List ℚ)) (gains : List ℚ) :
    ∃ F P, stitchSegmentsWithOverlapHandling (s0 :: srest) (f0 :: frest) gains
        = some (F, P) ∧
      F.take f0.length = f0 ∧ P.take s0.length = s0 ∧
      ∃ rf rp, F = f0 ++ rf ∧ P = s0 ++ rp := by
  simp only [stitchSegmentsWithOverlapHandling]
  obtain ⟨a, b, h⟩ := stitchLoop_append (frest.zip (srest.zip (gains.drop 1))) (f0, s0)
  refine ⟨f0 ++ a, s0 ++ b, by rw [h], ?_, ?_, a, b, rfl, rfl⟩
  · exact List.take_left f0 a
  · exact List.take_left s0 b

/-! ## Claim C5: gain corrections and their use during stitching -/

/-- Every branch of a stitching step appends a suffix of the next segment's
arrays: the whole segment (no overlap, drop 0), the tail from the
`searchsorted` index (overlap), or nothing (drop everything).  The PSD suffix
is a suffix of the gain-scaled PSD in every case. -/
theorem stitchStep_block [LinearOrderedField α] [LinearOrderedField β]
    (cur : List α × List β) (nxt : List α × (List β × β)) :
    ∃ k : ℕ, stitchStep cur nxt =
      (cur.1 ++ nxt.1.drop k,
        cur.2 ++ (nxt.2.1.map (fun x => x * nxt.2.2)).drop k) := by
  unfold stitchStep
  by_cases h1 : cur.1.getLastD 0 < nxt.1.headD 0
  · exact ⟨0, by rw [if_pos h1]; simp⟩
  · by_cases h2 : searchsortedLeft nxt.1 (cur.1.getLastD 0) < nxt.1.length
    · exact ⟨searchsortedLeft nxt.1 (cur.1.getLastD 0),
        by rw [if_neg h1, if_pos h2]⟩
    · refine ⟨max nxt.1.length (nxt.2.1.map (fun x => x * nxt.2.2)).length, ?_⟩
      rw [if_neg h1, if_neg h2, List.drop_eq_nil_of_le (le_max_left _ _),
        List.drop_eq_nil_of_le (le_max_right _ _)]
      simp

/-- Folding the whole stitching loop: with no hypotheses at all — in
particular for overlapping sweeps — the result is the initial accumulator
followed, per later segment, by a suffix of that segment's frequency axis and
the matching suffix of its gain-scaled PSD. -/
theorem stitchLoop_blocks [LinearOrderedField α] [LinearOrderedField β] :
    ∀ (rest : List (List α × (List β × β))) (cur : List α × List β),
      ∃ ks : List ℕ, ks.length = rest.length ∧
        rest.foldl stitchStep cur =
          (cur.1 ++ ((rest.zip ks).map (fun p => p.1.1.drop p.2)).flatten,
            cur.2 ++ ((rest.zip ks).map (fun p =>
              (p.1.2.1.map (fun x => x * p.1.2.2)).drop p.2)).flatten) := by
  intro rest
  induction rest with
  | nil => exact fun cur => ⟨[], rfl, by simp⟩
  | cons x rest ih =>
      intro cur
      obtain ⟨k, hk⟩ := stitchStep_block cur x
      obtain ⟨ks, hlen, hks⟩ := ih (stitchStep cur x)
      refine ⟨k :: ks, by simp [hlen], ?_⟩
      rw [List.foldl_cons, hks, hk]
      simp [List.zip_cons_cons, List.append_assoc]

theorem zip_zip_map_drop_fst :
    ∀ (l₁ : List (List ℚ)) (l₂ : List (List ℚ × ℚ)) (ks : List ℕ),
      l₁.length ≤ l₂.length →
      ((l₁.zip l₂).zip ks).map (fun p => p.1.1.drop p.2) =
        (l₁.zip ks).map (fun p => p.1.drop p.2) := by
  intro l₁
  induction l₁ with
  | nil => intro l₂ ks _; simp
  | cons a l₁ ih =>
      intro l₂ ks h
      cases l₂ with
      | nil => simp only [List.length_cons, List.length_nil] at h; omega
      | cons b l₂ =>
          cases ks with
          | nil => simp
          | cons k ks =>
              simp only [List.zip_cons_cons, List.map_cons]
              rw [ih l₂ ks (by simp only [List.length_cons] at h; omega)]

theorem zip_zip_map_scale_snd :
    ∀ (l₁ : List (List ℚ)) (l₂ : List (List ℚ × ℚ)) (ks : List ℕ),
      l₂.length ≤ l₁.length →
      ((l₁.zip l₂).zip ks).map (fun p =>
          (p.1.2.1.map (fun x => x * p.1.2.2)).drop p.2) =
        (l₂.zip ks).map (fun p => (p.1.1.map (fun x => x * p.1.2)).drop p.2) := by
  intro l₁
  induction l₁ with
  | nil =>
      intro l₂ ks h
      cases l₂ with
      | nil => simp
      | cons b l₂ => simp only [List.length_cons, List.length_nil] at h; omega
  | cons a l₁ ih =>
      intro l₂ ks h
      cases l₂ with
      | nil => simp
      | cons b l₂ =>
          cases ks with
          | nil => simp
          | cons k ks =>
              simp only [List.zip_cons_cons, List.map_cons]
              rw [ih l₂ ks (by simp only [List.length_cons] at h; omega)]

/-- C5: for every non-empty segment list (with the three parallel arrays of
equal length, as at every call site), the gain-correction array has one
scalar per segment, entry 0 is exactly 1, entry `i ≥ 1` is
`median(segment 0) / median(segment i)`; and during stitching — overlapping
or not — segment 0's PSD is appended uncorrected while every entry
contributed by a later segment `i` comes from a suffix of segment `i`'s PSD
multiplied by `correction[i]` before merging. -/
theorem gain_corrections_spec (s0 : List ℚ) (srest : List (List ℚ))
    (f0 : List ℚ) (frest : List (List ℚ))
    (hlenf : frest.length = srest.length) :
    ∃ gc, calculateGainCorrections (s0 :: srest) = some gc ∧
      gc.length = (s0 :: srest).length ∧
      gc.getD 0 0 = 1 ∧
      (∀ i, 1 ≤ i → i < gc.length →
        gc.getD i 0 = median s0 / median (srest.getD (i - 1) [])) ∧
      ∃ F P ks, stitchSegmentsWithOverlapHandling (s0 :: srest) (f0 :: frest)
          gc = some (F, P) ∧
        ks.length = srest.length ∧
        F = f0 ++ ((frest.zip ks).map (fun p => p.1.drop p.2)).flatten ∧
        P = s0 ++ (((srest.zip (gc.drop 1)).zip ks).map (fun p =>
          (p.1.1.map (fun x => x * p.1.2)).drop p.2)).flatten := by
  refine ⟨1 :: srest.map (fun s => median s0 / median s), rfl, by simp, rfl, ?_, ?_⟩
  · intro i h1 hlen
    simp only [List.length_cons, List.length_map] at hlen
    obtain ⟨j, rfl⟩ : ∃ j, i = j + 1 := ⟨i - 1, by omega⟩
    simp only [List.getD_cons_succ, Nat.add_sub_cancel]
    have hj : j < srest.length := by omega
    rw [List.getD_eq_getElem _ _ (by simpa using hj), List.getD_eq_getElem _ _ hj,
      List.getElem_map]
  · simp only [stitchSegmentsWithOverlapHandling, List.drop_succ_cons,
      List.drop_zero]
    obtain ⟨ks, hkslen, hfold⟩ := stitchLoop_blocks
      (frest.zip (srest.zip (srest.map fun s => median s0 / median s))) (f0, s0)
    have hlen2 : frest.length ≤ (srest.zip
        (srest.map fun s => median s0 / median s)).length := by
      rw [List.length_zip, List.length_map]
      omega
    have hlen3 : (srest.zip
        (srest.map fun s => median s0 / median s)).length ≤ frest.length := by
      rw [List.length_zip, List.length_map]
      omega
    refine ⟨_, _, ks, by rw [hfold], ?_, ?_, ?_⟩
    · rw [hkslen, List.length_zip, List.length_zip, List.length_map]
      omega
    · rw [zip_zip_map_drop_fst frest _ ks hlen2]
    · rw [zip_zip_map_scale_snd frest _ ks hlen3]

/-- C5 (witness): concrete gain corrections for two one-bin segments with
medians 8 and 2, giving correction 4 for segment 1, and the corresponding
suffix-of-scaled-PSD stitch decomposition. -/
theorem gain_corrections_spec_witness :
    ∃ gc, calculateGainCorrections [[(8 : ℚ)], [2]] = some gc ∧
      gc.length = 2 ∧
      gc.getD 0 0 = 1 ∧
      (∀ i, 1 ≤ i → i < gc.length →
        gc.getD i 0 = median [(8 : ℚ)] / median ([[(2 : ℚ)]].getD (i - 1) [])) ∧
      ∃ F P ks, stitchSegmentsWithOverlapHandling [[(8 : ℚ)], [2]]
          [[(0 : ℚ)], [1]] gc = some (F, P) ∧
        ks.length = 1 ∧
        F = [(0 : ℚ)] ++ (([[(1 : ℚ)]].zip ks).map (fun p => p.1.drop p.2)).flatten ∧
        P = [(8 : ℚ)] ++ ((([[(2 : ℚ)]].zip (gc.drop 1)).zip ks).map (fun p =>
          (p.1.1.map (fun x => x * p.1.2)).drop p.2)).flatten :=
  gain_corrections_spec [8] [[2]] [0] [[1]] (by norm_num)

/-! ## Claim C7: post-stitch smoothing -/

theorem headD_eq_getD {γ : Type*} (l : List γ) (d : γ) : l.headD d = l.getD 0 d := by
  cases l <;> rfl

theorem length_npConvolveFull [LinearOrderedField β] (a v : List β) :
    (npConvolveFull a v).length = a.length + v.length - 1 := by
  simp [npConvolveFull]

/-- Sums over `List.range n` of a function vanishing from index `c` on
truncate to `List.range c`. -/
theorem sum_map_range_zero_beyond (g : ℕ → ℚ) {n c : ℕ} (hc : c ≤ n)
    (hz : ∀ m, c ≤ m → g m = 0) :
    ((List.range n).map g).sum = ((List.range c).map g).sum := by
  induction n, hc using Nat.le_induction with
  | base => rfl
  | succ k hk ih =>
      rw [List.range_succ, List.map_append, List.sum_append, ih]
      simp [hz k hk]

/-- Head of the size-5 box smoothing of a curve longer than 10: the
zero-padded average of the first three samples. -/
theorem smoothing_head_formula (psd : List ℚ) (h : 10 < psd.length) :
    (applyFinalSmoothing psd 5).headD 0 =
      (psd.getD 0 0 + psd.getD 1 0 + psd.getD 2 0) / 5 := by
  rw [applyFinalSmoothing, if_pos (by omega)]
  rw [npConvolveSame]
  simp only [List.length_replicate,
    Nat.min_eq_right (show (5 : ℕ) ≤ psd.length by omega),
    Nat.max_eq_left (show (5 : ℕ) ≤ psd.length by omega)]
  have h2 : ((5 : ℕ) - 1) / 2 = 2 := by norm_num
  rw [h2, headD_eq_getD, List.getD_eq_getElem?_getD, List.getElem?_take,
    if_pos (by omega), List.getElem?_drop, Nat.add_zero, npConvolveFull]
  simp only [List.length_replicate]
  rw [List.getElem?_map, List.getElem?_range (by omega)]
  simp only [Option.map_some', Option.getD_some]
  rw [sum_map_range_zero_beyond _ (show 3 ≤ psd.length by omega) ?_]
  · show (List.map _ [0, 1, 2]).sum = _
    norm_num [List.getD_eq_getElem?_getD, List.getElem?_replicate]
    ring
  · intro m hm
    simp only [ite_eq_right_iff, and_imp]
    intro hm2
    omega

/-- C7 (counterexample): on the constant curve of eleven `1`s (length
`11 > 2·5`) the default size-5 box smoothing gives first output sample `3/5`,
not the original edge value `1`: under `np.convolve(..., mode='same')` the
edges are zero-padded averages, they do not keep their original values. -/
theorem smoothing_edge_counterexample :
    (applyFinalSmoothing (List.replicate 11 (1 : ℚ)) 5).headD 0 = 3 / 5 ∧
    (List.replicate 11 (1 : ℚ)).headD 0 = 1 ∧ ((3 : ℚ) / 5) ≠ 1 := by
  refine ⟨?_, rfl, by norm_num⟩
  rw [smoothing_head_formula _ (by simp)]
  norm_num

/-- C7 (amended): smoothing applies the size-5 box kernel only when the curve
is longer than `2 × 5` and otherwise returns the curve unchanged; when the
filter is applied the output has the same length as the input, but the edge
samples are zero-padded box averages — the first output sample is
`(psd[0] + psd[1] + psd[2]) / 5` — rather than the original edge values. -/
theorem smoothing_behaviour (psd : List ℚ) :
    (psd.length ≤ 10 → applyFinalSmoothing psd 5 = psd) ∧
    (10 < psd.length → (applyFinalSmoothing psd 5).length = psd.length ∧
      (applyFinalSmoothing psd 5).headD 0 =
        (psd.getD 0 0 + psd.getD 1 0 + psd.getD 2 0) / 5) := by
  constructor
  · intro h
    rw [applyFinalSmoothing, if_neg (by omega)]
  · intro h
    refine ⟨?_, smoothing_head_formula psd h⟩
    rw [applyFinalSmoothing, if_pos (by omega)]
    rw [npConvolveSame]
    simp only [List.length_take, List.length_drop, length_npConvolveFull,
      List.length_replicate]
    rw [Nat.max_eq_left (show (5 : ℕ) ≤ psd.length by omega),
      Nat.min_eq_right (show (5 : ℕ) ≤ psd.length by omega)]
    omega

/-- C7 (witness): the amended smoothing behaviour at concrete inputs — a
constant curve of twelve `2`s is smoothed to length 12 with first sample
`6/5`, and a short curve of two samples is returned unchanged. -/
theorem smoothing_behaviour_witness :
    (applyFinalSmoothing (List.replicate 12 (2 : ℚ)) 5).length = 12 ∧
    (applyFinalSmoothing (List.replicate 12 (2 : ℚ)) 5).headD 0 = (2 + 2 + 2) / 5 ∧
    applyFinalSmoothing [(1 : ℚ), 2] 5 = [1, 2] := by
  refine ⟨?_, ?_, ?_⟩
  · simpa using ((smoothing_behaviour (List.replicate 12 2)).2 (by norm_num)).1
  · simpa using ((smoothing_behaviour (List.replicate 12 2)).2 (by norm_num)).2
  · exact (smoothing_behaviour [1, 2]).1 (by norm_num)

/-! ## Claims C4 and C6: shape and totality of the spectral estimator -/

theorem length_hannWindow (m : ℕ) : (hannWindow m).length = m := by
  simp [hannWindow]

theorem length_dft (x : List ℂ) : (dft x).length = x.length := by
  simp [dft]

theorem length_fftshift {γ : Type*} (x : List γ) :
    (fftshift x).length = x.length := by
  simp only [fftshift, List.length_append, List.length_drop, List.length_take]
  omega

/-- The two conditioning branches of `process_fft` collapse to
truncate-then-pad. -/
theorem padToFftSize_eq (s : List ℂ) (n : ℕ) :
    padToFftSize s n = s.take n ++ List.replicate (n - s.length) 0 := by
  unfold padToFftSize
  by_cases h : s.length > n
  · rw [if_pos h, show n - s.length = 0 by omega, List.replicate_zero,
      List.append_nil]
  · rw [if_neg h, List.take_of_length_le (by omega)]

theorem length_padToFftSize (s : List ℂ) (n : ℕ) :
    (padToFftSize s n).length = n := by
  rw [padToFftSize_eq]
  simp only [List.length_append, List.length_take, List.length_replicate]
  omega

theorem length_processedFrequencies (c r : ℤ) (n : ℕ) :
    (processedFrequencies c r n).length = n := by
  simp [processedFrequencies]

theorem processedFrequencies_getD (c r : ℤ) {n : ℕ} {i : ℕ} (hi : i < n) :
    (processedFrequencies c r n).getD i 0 =
      ((c - r / 2 : ℤ) : ℚ) + (i : ℚ) * ((r : ℚ) / (n : ℚ)) := by
  unfold processedFrequencies
  rw [List.getD_eq_getElem?_getD, List.getElem?_map, List.getElem?_range hi]
  simp [add_comm]

/-- The frequency axis is strictly increasing as soon as the sample rate is
positive. -/
theorem chain'_processedFrequencies (c : ℤ) {r : ℤ} (n : ℕ) (hr : 0 < r) :
    List.Chain' (· < ·) (processedFrequencies c r n) := by
  unfold processedFrequencies
  cases n with
  | zero => simp
  | succ k =>
      refine List.Pairwise.chain' (List.pairwise_map.mpr
        ((List.pairwise_lt_range (k + 1)).imp ?_))
      intro a b hab
      have hstep : 0 < (r : ℚ) / ((k + 1 : ℕ) : ℚ) := by
        apply div_pos
        · exact_mod_cast hr
        · positivity
      have : (a : ℚ) < (b : ℚ) := by exact_mod_cast hab
      exact add_lt_add_right (mul_lt_mul_of_pos_right this hstep) _

theorem processFft_freq_component (fftSize : ℕ) (sampleRate centerFrequency : ℤ)
    (iqSamples : List ℂ) :
    (processFft fftSize sampleRate centerFrequency iqSamples).1 =
      processedFrequencies centerFrequency sampleRate fftSize := rfl

theorem processFft_psd_length (fftSize : ℕ) (sampleRate centerFrequency : ℤ)
    (iqSamples : List ℂ) :
    (processFft fftSize sampleRate centerFrequency iqSamples).2.1.length =
      fftSize := by
  simp [processFft, length_fftshift, length_dft, length_padToFftSize,
    length_hannWindow]

/-- C4 (counterexample): on the empty sample sequence the spectral estimator
does not fail — `process_fft` zero-pads and returns a full Segment with
`fft_size` frequency and PSD points, and `detect_peaks_in_spectrum` returns
an empty peak list; no `InvalidInput` error exists for length-0 input. -/
theorem estimator_empty_input_counterexample :
    (processFft 4 2 0 ([] : List ℂ)).1.length = 4 ∧
    (processFft 4 2 0 ([] : List ℂ)).2.1.length = 4 ∧
    detectPeaksInSpectrum ⟨2048, -40, 25, 100, 5, 10⟩ ([] : List ℂ) 0 2 2 = [] := by
  refine ⟨?_, processFft_psd_length 4 2 0 [], ?_⟩
  · rw [processFft_freq_component]
    exact length_processedFrequencies 0 2 4
  · unfold detectPeaksInSpectrum
    rw [if_pos rfl]

/-- C4 (amended): the spectral estimator has no error conditions at all: for
every input sample sequence, of any length including zero, `process_fft`
returns a Segment whose frequency and PSD arrays have exactly `fft_size`
elements (length-0 input is zero-padded), and `detect_peaks_in_spectrum`
returns an empty peak list on empty input instead of failing. -/
theorem estimator_total (fftSize : ℕ) (sampleRate centerFrequency : ℤ)
    (iqSamples : List ℂ) (cfg : FftConfig ℝ) (cf rate bw : ℤ) :
    (processFft fftSize sampleRate centerFrequency iqSamples).1.length = fftSize ∧
    (processFft fftSize sampleRate centerFrequency iqSamples).2.1.length = fftSize ∧
    detectPeaksInSpectrum cfg [] cf rate bw = [] := by
  refine ⟨?_, processFft_psd_length fftSize sampleRate centerFrequency iqSamples, ?_⟩
  · rw [processFft_freq_component]
    exact length_processedFrequencies centerFrequency sampleRate fftSize
  · unfold detectPeaksInSpectrum
    rw [if_pos rfl]

/-- C6 (counterexample): with an odd sample rate the frequency axis does not
start at `center_frequency - sample_rate/2`: `freq_start` uses Python floor
division `sample_rate // 2`, so for `fft_size = 2`, `sample_rate = 1`,
`center_frequency = 0` the first frequency is `0`, not `-1/2`. -/
theorem processFft_freq_start_counterexample :
    (processFft 2 1 0 [(1 : ℂ)]).1.headD 0 = 0 ∧
    ((0 : ℚ) - 1 / 2 ≠ (0 : ℚ)) := by
  constructor
  · rw [processFft_freq_component, headD_eq_getD,
      processedFrequencies_getD 0 1 (show (0 : ℕ) < 2 by norm_num)]
    norm_num
  · norm_num

/-- C6 (amended): for every `fft_size ≥ 2`, positive sample rate and
non-empty sample sequence, `process_fft` returns frequency and PSD arrays
with exactly `fft_size` elements each, the input buffer is truncated to
`fft_size` when longer and zero-padded at the tail when shorter, and the
frequency axis is strictly increasing: `fft_size` equally spaced points with
step `sample_rate / fft_size` starting at
`center_frequency - (sample_rate // 2)` (Python floor division, which is
`sample_rate / 2` whenever the sample rate is even). -/
theorem processFft_segment_shape (fftSize : ℕ) (sampleRate centerFrequency : ℤ)
    (iqSamples : List ℂ) (_h2 : 2 ≤ fftSize) (hrate : 0 < sampleRate)
    (_hne : iqSamples ≠ []) :
    (processFft fftSize sampleRate centerFrequency iqSamples).1.length = fftSize ∧
    (processFft fftSize sampleRate centerFrequency iqSamples).2.1.length = fftSize ∧
    padToFftSize iqSamples fftSize =
      iqSamples.take fftSize ++ List.replicate (fftSize - iqSamples.length) 0 ∧
    List.Chain' (· < ·) (processFft fftSize sampleRate centerFrequency iqSamples).1 ∧
    ∀ i < fftSize,
      (processFft fftSize sampleRate centerFrequency iqSamples).1.getD i 0 =
        ((centerFrequency - sampleRate / 2 : ℤ) : ℚ) +
          (i : ℚ) * ((sampleRate : ℚ) / (fftSize : ℚ)) := by
  rw [processFft_freq_component]
  exact ⟨length_processedFrequencies centerFrequency sampleRate fftSize,
    processFft_psd_length fftSize sampleRate centerFrequency iqSamples,
    padToFftSize_eq iqSamples fftSize,
    chain'_processedFrequencies centerFrequency fftSize hrate,
    fun i hi => processedFrequencies_getD centerFrequency sampleRate hi⟩

/-- C6 (witness): the amended segment shape at `fft_size = 2`,
`sample_rate = 4`, `center_frequency = 10`, one sample. -/
theorem processFft_segment_shape_witness :
    (processFft 2 4 10 [(1 : ℂ)]).1.length = 2 ∧
    (processFft 2 4 10 [(1 : ℂ)]).2.1.length = 2 ∧
    padToFftSize [(1 : ℂ)] 2 =
      [(1 : ℂ)].take 2 ++ List.replicate (2 - [(1 : ℂ)].length) 0 ∧
    List.Chain' (· < ·) (processFft 2 4 10 [(1 : ℂ)]).1 ∧
    ∀ i < 2, (processFft 2 4 10 [(1 : ℂ)]).1.getD i 0 =
      ((10 - 4 / 2 : ℤ) : ℚ) + (i : ℚ) * ((4 : ℚ) / (2 : ℚ)) :=
  processFft_segment_shape 2 4 10 [1] (by norm_num) (by norm_num) (by simp)

/-! ## Claim C2: capture failure during a sweep -/

/-- A single failing step makes the whole step collection fail (the
exception propagates out of the loop). -/
theorem collectSteps_eq_none {γ δ : Type*} (f : γ → Option δ) :
    ∀ l : List γ, (∃ a ∈ l, f a = none) → collectSteps f l = none := by
  intro l
  induction l with
  | nil => rintro ⟨a, ha, -⟩; cases ha
  | cons c rest ih =>
      rintro ⟨a, ha, hfa⟩
      rcases List.mem_cons.mp ha with rfl | hmem
      · simp [collectSteps, hfa]
      · cases hfc : f c with
        | none => simp [collectSteps, hfc]
        | some x => simp [collectSteps, hfc, ih ⟨a, hmem, hfa⟩]

/-- C2 (amended): if the hardware capture fails for any one sweep step (no
samples, or fewer than `fft_size` after truncation), the resulting exception
aborts the whole sweep and `scan_and_stitch_spectrum_with_connection`'s
`except` handler returns an Empty result — the data of every successful step
is discarded, the sweep does not continue past the failure.  In particular a
sweep in which every step fails also returns an Empty result, not an
error. -/
theorem sweep_step_failure_returns_empty (capture : ℤ → Option (List ℂ))
    (startFreq endFreq stepFreq : ℤ) (fftSize : ℕ) (sampleRate : ℤ)
    (h : ∃ c ∈ pythonRange startFreq (endFreq + 1) stepFreq,
      captureAndProcessSegment (capture c) c sampleRate fftSize = none) :
    scanAndStitchSpectrumWithConnection capture startFreq endFreq stepFreq
      fftSize sampleRate = ([], []) := by
  have hc := collectSteps_eq_none
    (fun c => captureAndProcessSegment (capture c) c sampleRate fftSize) _ h
  simp only [scanAndStitchSpectrumWithConnection]
  rw [hc]

/-- C2 (witness): a sweep whose hardware capture always fails returns the
Empty result. -/
theorem sweep_step_failure_returns_empty_witness :
    scanAndStitchSpectrumWithConnection (fun _ => none) 0 1 1 2 2 = ([], []) :=
  sweep_step_failure_returns_empty (fun _ => none) 0 1 1 2 2
    ⟨0, by decide, rfl⟩

/-- C2 (counterexample): a two-step sweep in which step 0 captures a full
buffer and step 1 returns a short buffer.  The claim says step 1 is excluded
and the stitched result still contains step 0's data; the code instead
catches the broadcast error and returns two empty arrays, discarding the
successful step — even though step 0's processed segment exists. -/
theorem sweep_partial_failure_counterexample :
    scanAndStitchSpectrumWithConnection
        (fun c => if c = 0 then some (List.replicate 2 1) else some []) 0 1 1 2 2
      = ([], []) ∧
    (captureAndProcessSegment (some (List.replicate 2 1)) 0 2 2).isSome = true := by
  constructor
  · have h1 : captureAndProcessSegment
        ((fun c : ℤ => if c = 0 then some (List.replicate 2 (1 : ℂ))
          else some []) 1) 1 2 2 = none := by
      simp [captureAndProcessSegment]
    have hc := collectSteps_eq_none
      (fun c => captureAndProcessSegment
        ((fun c : ℤ => if c = 0 then some (List.replicate 2 (1 : ℂ))
          else some []) c) c 2 2)
      (pythonRange 0 (1 + 1) 1) ⟨1, by decide, h1⟩
    simp only [scanAndStitchSpectrumWithConnection]
    rw [hc]
  · simp [captureAndProcessSegment]

/-! ## Claim C9: global bounds on the peak detector's output -/

theorem mem_insertByPowerDesc {β : Type*} [LinearOrderedField β]
    (x a : ℤ × β) (l : List (ℤ × β)) :
    a ∈ insertByPowerDesc x l ↔ a = x ∨ a ∈ l := by
  induction l with
  | nil => simp [insertByPowerDesc]
  | cons y ys ih =>
      rw [insertByPowerDesc]
      by_cases h : y.2 ≤ x.2
      · rw [if_pos h]
        simp [List.mem_cons, or_comm, or_left_comm]
      · rw [if_neg h]
        simp only [List.mem_cons, ih]
        tauto

theorem head?_insertByPowerDesc {β : Type*} [LinearOrderedField β]
    (x : ℤ × β) (l : List (ℤ × β)) :
    (insertByPowerDesc x l).head? = some x ∨
      (insertByPowerDesc x l).head? = l.head? := by
  cases l with
  | nil => left; rfl
  | cons y ys =>
      rw [insertByPowerDesc]
      by_cases h : y.2 ≤ x.2
      · left; rw [if_pos h]; rfl
      · right; rw [if_neg h]; rfl

theorem chain'_insertByPowerDesc {β : Type*} [LinearOrderedField β]
    (x : ℤ × β) (l : List (ℤ × β))
    (h : List.Chain' (fun p q : ℤ × β => q.2 ≤ p.2) l) :
    List.Chain' (fun p q : ℤ × β => q.2 ≤ p.2) (insertByPowerDesc x l) := by
  induction l with
  | nil => simp [insertByPowerDesc]
  | cons y ys ih =>
      rw [insertByPowerDesc]
      by_cases hxy : y.2 ≤ x.2
      · rw [if_pos hxy]
        exact h.cons hxy
      · rw [if_neg hxy]
        rw [List.chain'_cons']
        refine ⟨?_, ih h.tail⟩
        intro z hz
        rcases head?_insertByPowerDesc x ys with hh | hh
        · rw [hh, Option.mem_def, Option.some.injEq] at hz
          rw [← hz]
          exact le_of_lt (lt_of_not_le hxy)
        · rw [hh] at hz
          exact (List.chain'_cons'.mp h).1 z hz

theorem mem_sortByPowerDesc {β : Type*} [LinearOrderedField β]
    (a : ℤ × β) (l : List (ℤ × β)) :
    a ∈ sortByPowerDesc l ↔ a ∈ l := by
  induction l with
  | nil => simp [sortByPowerDesc]
  | cons y ys ih =>
      rw [sortByPowerDesc, List.foldr_cons]
      rw [mem_insertByPowerDesc]
      rw [show ys.foldr insertByPowerDesc [] = sortByPowerDesc ys from rfl, ih]
      simp [List.mem_cons]

theorem chain'_sortByPowerDesc {β : Type*} [LinearOrderedField β]
    (l : List (ℤ × β)) :
    List.Chain' (fun p q : ℤ × β => q.2 ≤ p.2) (sortByPowerDesc l) := by
  induction l with
  | nil => simp [sortByPowerDesc]
  | cons y ys ih =>
      rw [sortByPowerDesc, List.foldr_cons]
      exact chain'_insertByPowerDesc y _ ih

/-- Every accepted candidate's power passed the `min_peak_height` test and is
the power value at its bin. -/
theorem minHeight_of_mem_detectCandidates {β : Type*} [LinearOrderedField β]
    (cfg : FftConfig β) (ps : List β) (freqs : List ℚ) (cf bw : ℤ)
    {p : ℤ × β} (hp : p ∈ detectCandidates cfg ps freqs cf bw) :
    cfg.minPeakHeight ≤ p.2 := by
  simp only [detectCandidates, peakCandidateAt, List.mem_filterMap] at hp
  obtain ⟨i, _, hfi⟩ := hp
  by_cases h1 : ps.getD i 0 < cfg.minPeakHeight
  · rw [if_pos h1] at hfi
    cases hfi
  · rw [if_neg h1] at hfi
    split_ifs at hfi with h2 h3 h4
    · rw [Option.some.injEq] at hfi
      rw [← hfi]
      exact le_of_not_lt h1

/-- C9: for every input spectrum, frequency axis, band and configuration
(with a positive window-size divisor, as the Python division requires), the
peak detector returns at most `max_peaks_per_band` peaks, every returned
peak's power is at least `min_peak_height`, and the returned list is sorted
in descending order of power. -/
theorem detect_peaks_output_bounds (cfg : FftConfig ℚ) (ps freqs : List ℚ)
    (cf bw : ℤ) (_hdiv : 0 < cfg.windowSizeDivisor) :
    (detectPeaks cfg ps freqs cf bw).length ≤ cfg.maxPeaksPerBand ∧
    (∀ p ∈ detectPeaks cfg ps freqs cf bw, cfg.minPeakHeight ≤ p.2) ∧
    List.Chain' (fun p q : ℤ × ℚ => q.2 ≤ p.2)
      (detectPeaks cfg ps freqs cf bw) := by
  refine ⟨?_, ?_, ?_⟩
  · rw [detectPeaks, List.length_take]
    exact min_le_left _ _
  · intro p hp
    have hp' : p ∈ sortByPowerDesc (detectCandidates cfg ps freqs cf bw) :=
      List.take_subset _ _ hp
    exact minHeight_of_mem_detectCandidates cfg ps freqs cf bw
      ((mem_sortByPowerDesc p _).mp hp')
  · rw [detectPeaks]
    have hs := chain'_sortByPowerDesc (detectCandidates cfg ps freqs cf bw)
    nth_rewrite 1 [show sortByPowerDesc (detectCandidates cfg ps freqs cf bw) =
      (sortByPowerDesc (detectCandidates cfg ps freqs cf bw)).take
          cfg.maxPeaksPerBand ++
        (sortByPowerDesc (detectCandidates cfg ps freqs cf bw)).drop
          cfg.maxPeaksPerBand from (List.take_append_drop _ _).symm] at hs
    exact hs.left_of_append

/-- C9 (witness): the bounds at the repository's `FFT_CONFIG` on a concrete
spectrum. -/
theorem detect_peaks_output_bounds_witness :
    (detectPeaks ⟨2048, -40, 25, 100, 5, 10⟩ (List.replicate 16 (0 : ℚ))
        (List.replicate 16 (0 : ℚ)) 0 20).length ≤ 10 ∧
    (∀ p ∈ detectPeaks ⟨2048, -40, 25, 100, 5, 10⟩ (List.replicate 16 (0 : ℚ))
        (List.replicate 16 (0 : ℚ)) 0 20, (-40 : ℚ) ≤ p.2) ∧
    List.Chain' (fun p q : ℤ × ℚ => q.2 ≤ p.2)
      (detectPeaks ⟨2048, -40, 25, 100, 5, 10⟩ (List.replicate 16 (0 : ℚ))
        (List.replicate 16 (0 : ℚ)) 0 20) :=
  detect_peaks_output_bounds ⟨2048, -40, 25, 100, 5, 10⟩
    (List.replicate 16 0) (List.replicate 16 0) 0 20 (by norm_num)

/-! ## Claim C8: characterisation of the peak-candidate acceptance test -/

theorem max?_eq_some_iff_lin {γ : Type*} [LinearOrder γ] {l : List γ} {a : γ} :
    l.max? = some a ↔ a ∈ l ∧ ∀ b ∈ l, b ≤ a := by
  have inst : Std.Antisymm (fun x y : γ => x ≤ y) := by
    constructor
    intro x y hxy hyx
    exact le_antisymm hxy hyx
  rw [List.max?_eq_some_iff]
  all_goals simp [le_total]

/-- A slice `l[a : a+b]` as a map over its index range. -/
theorem drop_take_eq_map_range {γ : Type*} (ps : List γ) (d : γ) (a b : ℕ) :
    (ps.drop a).take b =
      (List.range (min b (ps.length - a))).map (fun t => ps.getD (a + t) d) := by
  apply List.ext_getElem
  · simp only [List.length_take, List.length_drop, List.length_map,
      List.length_range]
  · intro t h1 h2
    simp only [List.length_take, List.length_drop] at h1
    have ht : a + t < ps.length := by omega
    simp only [List.getElem_take, List.getElem_drop, List.getElem_map,
      List.getElem_range]
    rw [List.getD_eq_getElem ps d ht]

theorem sum_map_range_eq_finset (g : ℕ → ℚ) (k : ℕ) :
    ((List.range k).map g).sum = ∑ t ∈ Finset.range k, g t := by
  induction k with
  | zero => rfl
  | succ m ih =>
      rw [List.range_succ, List.map_append, List.sum_append,
        Finset.sum_range_succ, ih]
      simp

/-- A `filterMap` whose entries are dictated by a decidable predicate is the
map over the filtered list. -/
theorem filterMap_eq_map_filter {γ δ : Type*} (F : γ → Option δ) (P : γ → Prop)
    [DecidablePred P] (G : γ → δ) :
    ∀ l : List γ, (∀ i ∈ l, F i = if P i then some (G i) else none) →
      l.filterMap F = (l.filter (fun i => decide (P i))).map G := by
  intro l
  induction l with
  | nil => intro _; rfl
  | cons a l ih =>
      intro h
      rw [List.filterMap_cons, List.filter_cons, h a (List.mem_cons_self a l)]
      by_cases hp : P a
      · rw [if_pos hp, if_pos (by simpa using hp), List.map_cons,
          ih (fun i hi => h i (List.mem_cons_of_mem a hi))]
      · rw [if_neg hp, if_neg (by simpa using hp),
          ih (fun i hi => h i (List.mem_cons_of_mem a hi))]

/-- Restricting the filtered index range to the loop's interior interval
loses nothing when the predicate forces the interior bounds. -/
theorem filter_range_eq_filter_range' (P : ℕ → Prop) [DecidablePred P]
    (n w : ℕ) (hP : ∀ i, P i → w ≤ i ∧ i < n - w) :
    (List.range n).filter (fun i => decide (P i)) =
      (List.range' w (n - 2 * w)).filter (fun i => decide (P i)) := by
  by_cases h2 : 2 * w ≤ n
  · have hsplit : List.range n =
        List.range' 0 w ++ List.range' w (n - 2 * w) ++ List.range' (n - w) w := by
      rw [List.range_eq_range']
      have e1 : List.range' 0 w ++ List.range' w (n - 2 * w) =
          List.range' 0 (w + (n - 2 * w)) := by
        have := List.range'_append 0 w (n - 2 * w) 1
        simpa [Nat.add_comm] using this
      rw [e1]
      have e2 : List.range' 0 (w + (n - 2 * w)) ++ List.range' (n - w) w =
          List.range' 0 (w + (n - 2 * w) + w) := by
        have := List.range'_append 0 (w + (n - 2 * w)) w 1
        have hw : 0 + 1 * (w + (n - 2 * w)) = n - w := by omega
        rw [hw] at this
        simpa [Nat.add_comm] using this
      rw [e2]
      congr 1
      omega
    rw [hsplit, List.filter_append, List.filter_append]
    have hleft : (List.range' 0 w).filter (fun i => decide (P i)) = [] := by
      rw [List.filter_eq_nil_iff]
      intro a ha
      rw [List.mem_range'_1] at ha
      simp only [decide_eq_true_eq]
      intro hPa
      have := hP a hPa
      omega
    have hright : (List.range' (n - w) w).filter (fun i => decide (P i)) = [] := by
      rw [List.filter_eq_nil_iff]
      intro a ha
      rw [List.mem_range'_1] at ha
      simp only [decide_eq_true_eq]
      intro hPa
      have := hP a hPa
      omega
    rw [hleft, hright, List.nil_append, List.append_nil]
  · have hnone : (List.range n).filter (fun i => decide (P i)) = [] := by
      rw [List.filter_eq_nil_iff]
      intro a _
      simp only [decide_eq_true_eq]
      intro hPa
      have := hP a hPa
      omega
    have hz : n - 2 * w = 0 := by omega
    rw [hnone, hz]
    rfl

/-- The bandwidth test `abs(int(freqs[i]) - center) <= bandwidth // 2` is the
claim's exact-rational interval membership, because the reported frequency is
an integer. -/
theorem bandwidth_check_iff (fh cf bw : ℤ) :
    |fh - cf| ≤ bw / 2 ↔
      ((cf : ℚ) - (bw : ℚ) / 2 ≤ (fh : ℚ) ∧
        (fh : ℚ) ≤ (cf : ℚ) + (bw : ℚ) / 2) := by
  rw [abs_le]
  constructor
  · rintro ⟨hl, hr⟩
    have hr2 : (fh - cf) * 2 ≤ bw := by
      rw [← Int.le_ediv_iff_mul_le (by norm_num : (0 : ℤ) < 2)]
      exact hr
    have hl1 : cf - fh ≤ bw / 2 := by omega
    have hl2 : (cf - fh) * 2 ≤ bw := by
      rw [← Int.le_ediv_iff_mul_le (by norm_num : (0 : ℤ) < 2)]
      exact hl1
    constructor
    · have hq : ((cf - fh) * 2 : ℚ) ≤ (bw : ℚ) := by exact_mod_cast hl2
      push_cast at hq
      linarith
    · have hq : ((fh - cf) * 2 : ℚ) ≤ (bw : ℚ) := by exact_mod_cast hr2
      push_cast at hq
      linarith
  · rintro ⟨h1, h2⟩
    have hr2 : ((fh - cf) * 2 : ℚ) ≤ (bw : ℚ) := by linarith
    have hl2 : ((cf - fh) * 2 : ℚ) ≤ (bw : ℚ) := by linarith
    have hr3 : (fh - cf) * 2 ≤ bw := by exact_mod_cast hr2
    have hl3 : (cf - fh) * 2 ≤ bw := by exact_mod_cast hl2
    have hr4 : fh - cf ≤ bw / 2 := by
      rw [Int.le_ediv_iff_mul_le (by norm_num : (0 : ℤ) < 2)]
      exact hr3
    have hl4 : cf - fh ≤ bw / 2 := by
      rw [Int.le_ediv_iff_mul_le (by norm_num : (0 : ℤ) < 2)]
      exact hl3
    omega

/-- The loop's `np.max(local_window) == current_power` test is the claim's
closed-window maximality (any index attaining the maximum passes). -/
theorem local_max_iff (ps : List ℚ) (i w : ℕ) (hin : i < ps.length)
    (hwi : w ≤ i) :
    ((ps.drop (i - w)).take (2 * w + 1)).max? = some (ps.getD i 0) ↔
      ∀ j < ps.length, i - w ≤ j → j ≤ i + w →
        ps.getD j 0 ≤ ps.getD i 0 := by
  rw [max?_eq_some_iff_lin, drop_take_eq_map_range ps 0 (i - w) (2 * w + 1)]
  constructor
  · rintro ⟨-, hall⟩ j hj hj1 hj2
    refine hall (ps.getD j 0) ?_
    rw [List.mem_map]
    refine ⟨j - (i - w), ?_, ?_⟩
    · rw [List.mem_range]
      omega
    · congr 1
      omega
  · intro hall
    constructor
    · rw [List.mem_map]
      refine ⟨w, ?_, ?_⟩
      · rw [List.mem_range]
        omega
      · congr 1
        omega
    · intro b hb
      rw [List.mem_map] at hb
      obtain ⟨t, ht, rfl⟩ := hb
      rw [List.mem_range] at ht
      exact hall ((i - w) + t) (by omega) (by omega) (by omega)

/-- The loop's `np.mean` over the concatenated flanking slices equals the
claim's mean over the two flanking index bands. -/
theorem surrounding_avg_eq (ps : List ℚ) (i w : ℕ) (hin : i < ps.length) :
    (((ps.drop (i - 2 * w)).take ((i - w) - (i - 2 * w)) ++
        (ps.drop (i + w)).take (min ps.length (i + 2 * w) - (i + w))).sum /
      ((((ps.drop (i - 2 * w)).take ((i - w) - (i - 2 * w)) ++
        (ps.drop (i + w)).take (min ps.length (i + 2 * w) - (i + w))).length : ℕ) : ℚ))
    = ((∑ j ∈ Finset.Ico (i - 2 * w) (i - w), ps.getD j 0) +
        ∑ j ∈ Finset.Ico (i + w) (min ps.length (i + 2 * w)), ps.getD j 0) /
      ((((Finset.Ico (i - 2 * w) (i - w)).card +
        (Finset.Ico (i + w) (min ps.length (i + 2 * w))).card : ℕ)) : ℚ) := by
  have hL : min ((i - w) - (i - 2 * w)) (ps.length - (i - 2 * w)) =
      (i - w) - (i - 2 * w) := by omega
  have hR : min (min ps.length (i + 2 * w) - (i + w)) (ps.length - (i + w)) =
      min ps.length (i + 2 * w) - (i + w) := by omega
  rw [List.sum_append, List.length_append,
    drop_take_eq_map_range ps 0 (i - 2 * w) ((i - w) - (i - 2 * w)),
    drop_take_eq_map_range ps 0 (i + w) (min ps.length (i + 2 * w) - (i + w)),
    hL, hR, sum_map_range_eq_finset, sum_map_range_eq_finset,
    Finset.sum_Ico_eq_sum_range, Finset.sum_Ico_eq_sum_range]
  simp only [List.length_map, List.length_range, Nat.card_Ico, hL, hR]

/-- The per-index loop body accepts exactly the claim's candidates. -/
theorem peakCandidateAt_eq_claim (cfg : FftConfig ℚ) (ps freqs : List ℚ)
    (cf bw : ℤ) (w i : ℕ)
    (hw : w = max cfg.minWindowSize (ps.length / cfg.windowSizeDivisor))
    (hlo : w ≤ i) (hhi : i < ps.length - w) :
    peakCandidateAt cfg ps freqs cf bw w i =
      if claimPeakAccept cfg ps freqs cf bw i then
        some (pyInt (freqs.getD i 0), ps.getD i 0)
      else none := by
  have hin : i < ps.length := by omega
  simp only [peakCandidateAt, claimPeakAccept]
  simp only [← hw]
  by_cases h1 : ps.getD i 0 < cfg.minPeakHeight
  · rw [if_pos h1, if_neg]
    rintro ⟨-, -, h3, -⟩
    exact absurd h3 (not_le.mpr h1)
  · rw [if_neg h1]
    by_cases h2 : ((ps.drop (i - w)).take (2 * w + 1)).max? = some (ps.getD i 0)
    · rw [if_pos h2]
      by_cases h3 : cfg.peakThresholdDb ≤ ps.getD i 0 -
          (((ps.drop (i - 2 * w)).take ((i - w) - (i - 2 * w)) ++
            (ps.drop (i + w)).take (min ps.length (i + 2 * w) - (i + w))).sum /
          ((((ps.drop (i - 2 * w)).take ((i - w) - (i - 2 * w)) ++
            (ps.drop (i + w)).take
              (min ps.length (i + 2 * w) - (i + w))).length : ℕ) : ℚ))
      · rw [if_pos h3]
        by_cases h4 : |pyInt (freqs.getD i 0) - cf| ≤ bw / 2
        · rw [if_pos h4, if_pos]
          refine ⟨hlo, hhi, not_lt.mp h1,
            (local_max_iff ps i w hin hlo).mp h2, ?_,
            ((bandwidth_check_iff _ cf bw).mp h4).1,
            ((bandwidth_check_iff _ cf bw).mp h4).2⟩
          rw [← surrounding_avg_eq ps i w hin]
          exact h3
        · rw [if_neg h4, if_neg]
          rintro ⟨-, -, -, -, -, h6, h7⟩
          exact absurd ((bandwidth_check_iff _ cf bw).mpr ⟨h6, h7⟩) h4
      · rw [if_neg h3, if_neg]
        rintro ⟨-, -, -, -, h5, -⟩
        rw [← surrounding_avg_eq ps i w hin] at h5
        exact absurd h5 h3
    · rw [if_neg h2, if_neg]
      rintro ⟨-, -, -, h4, -⟩
      exact absurd ((local_max_iff ps i w hin hlo).mpr h4) h2

/-- C8 (amended): a bin index `i` is accepted as a peak candidate exactly
when `i` lies in `[w, len - w)` with
`w = max(min_window_size, len // window_size_divisor)`, `power[i]` is at
least `min_peak_height`, `power[i]` equals the maximum of the closed window
`[i-w, i+w]` (any index attaining that maximum is accepted — ties are not
broken toward the earliest index), `power[i]` exceeds the mean of the two
flanking bands `[i-2w, i-w)` and `[i+w, i+2w)` (clipped to the array) by at
least `peak_threshold_db`, and the reported integer frequency lies within
`[center - bandwidth/2, center + bandwidth/2]`; the candidate list is
exactly those bins in index order, reported as
`(int(freqs[i]), power[i])`. -/
theorem detect_candidates_characterisation (cfg : FftConfig ℚ)
    (ps freqs : List ℚ) (cf bw : ℤ) :
    detectCandidates cfg ps freqs cf bw =
      ((List.range ps.length).filter
        (fun i => decide (claimPeakAccept cfg ps freqs cf bw i))).map
        (fun i => (pyInt (freqs.getD i 0), ps.getD i 0)) := by
  rw [filter_range_eq_filter_range' (claimPeakAccept cfg ps freqs cf bw)
    ps.length (max cfg.minWindowSize (ps.length / cfg.windowSizeDivisor))
    (fun i hPi => ⟨hPi.1, hPi.2.1⟩)]
  rw [detectCandidates]
  apply filterMap_eq_map_filter
  intro i hi
  rw [List.mem_range'_1] at hi
  exact peakCandidateAt_eq_claim cfg ps freqs cf bw _ i rfl hi.1 (by omega)

/-- C8 (counterexample): on a spectrum with two adjacent equal maxima (bins 6
and 7 both at 0 dB over a −100 dB floor, repository `FFT_CONFIG`, window
`w = 5`), the loop accepts BOTH tied bins — `power[i] == np.max(window)` does
not break ties toward the earliest index, so the claim's tie rule is false:
the later index 7 is accepted although index 6 already attains the same
windowed maximum. -/
theorem peak_tie_counterexample :
    detectCandidates ⟨2048, -40, 25, 100, 5, 10⟩
        [(-100 : ℚ), -100, -100, -100, -100, -100, 0, 0, -100, -100, -100,
          -100, -100]
        [(0 : ℚ), 1, 2, 3, 4, 5, 6, 7, 8, 9, 10, 11, 12] 6 20 =
      [(6, 0), (7, 0)] ∧ ((7 : ℤ), (0 : ℚ)).1 ≠ (6 : ℤ) := by
  constructor
  · have h5 : peakCandidateAt ⟨2048, -40, 25, 100, 5, 10⟩
        [(-100 : ℚ), -100, -100, -100, -100, -100, 0, 0, -100, -100, -100,
          -100, -100]
        [(0 : ℚ), 1, 2, 3, 4, 5, 6, 7, 8, 9, 10, 11, 12] 6 20 5 5 = none := by
      norm_num [peakCandidateAt, List.max?_cons', max_def, pyInt]
    have h6 : peakCandidateAt ⟨2048, -40, 25, 100, 5, 10⟩
        [(-100 : ℚ), -100, -100, -100, -100, -100, 0, 0, -100, -100, -100,
          -100, -100]
        [(0 : ℚ), 1, 2, 3, 4, 5, 6, 7, 8, 9, 10, 11, 12] 6 20 5 6 =
        some ((6 : ℤ), (0 : ℚ)) := by
      norm_num [peakCandidateAt, List.max?_cons', max_def, pyInt]
    have h7 : peakCandidateAt ⟨2048, -40, 25, 100, 5, 10⟩
        [(-100 : ℚ), -100, -100, -100, -100, -100, 0, 0, -100, -100, -100,
          -100, -100]
        [(0 : ℚ), 1, 2, 3, 4, 5, 6, 7, 8, 9, 10, 11, 12] 6 20 5 7 =
        some ((7 : ℤ), (0 : ℚ)) := by
      norm_num [peakCandidateAt, List.max?_cons', max_def, pyInt]
    rw [detectCandidates]
    norm_num [List.range', List.filterMap_cons, h5, h6, h7]
  · norm_num

end RadioScan
